import Mathlib

/-!
Shallow embedding of the CleanShare URL cleaner (src/rules.rs, src/cleaner.rs,
src/main.rs).  Strings are modelled as Lean `String`s; the byte-level
percent-decoding of the `percent-encoding`/`form_urlencoded` crates is modelled
at the character level (faithful for ASCII, which is all the rule data and the
claims use).  The `globset` crate is modelled with `*`, `?` and `[...]` classes
(character ranges and `{..}` alternates are not used by any rule or claim);
an unclosed `[` is an invalid pattern, as in `globset`.
-/

/-- ASCII lowercasing of one character (Rust `char::to_ascii_lowercase`). -/
def asciiLowerChar (c : Char) : Char :=
  if 'A' ≤ c && c ≤ 'Z' then Char.ofNat (c.toNat + 32) else c

/-- ASCII lowercasing of a string (Rust `str::to_ascii_lowercase`). -/
def lowerStr (s : String) : String := ⟨s.data.map asciiLowerChar⟩

/-- Rust `str::eq_ignore_ascii_case`. -/
def eqIgnoreAsciiCase (a b : String) : Bool := lowerStr a == lowerStr b

/-- `contains_case_insensitive` from src/cleaner.rs. -/
def containsCaseInsensitive (list : List String) (key : String) : Bool :=
  let kl := lowerStr key
  list.any (fun e => eqIgnoreAsciiCase e kl || eqIgnoreAsciiCase e key)

/-- Value of a hex digit, if the character is one. -/
def hexVal (c : Char) : Option Nat :=
  if '0' ≤ c && c ≤ '9' then some (c.toNat - 48)
  else if 'a' ≤ c && c ≤ 'f' then some (c.toNat - 87)
  else if 'A' ≤ c && c ≤ 'F' then some (c.toNat - 55)
  else none

/-- One pass of percent-decoding (`percent_encoding::percent_decode_str`):
`%XY` with two hex digits becomes the character with that code, anything
else is copied verbatim. -/
def percentDecodeL : List Char → List Char
  | '%' :: a :: b :: rest =>
    match hexVal a, hexVal b with
    | some x, some y => Char.ofNat (16 * x + y) :: percentDecodeL rest
    | _, _ => '%' :: percentDecodeL (a :: b :: rest)
  | c :: rest => c :: percentDecodeL rest
  | [] => []

/-- String wrapper for `percentDecodeL`. -/
def percentDecode (s : String) : String := ⟨percentDecodeL s.data⟩

/-- `form_urlencoded` replaces `+` by a space before percent-decoding. -/
def plusToSpace (c : Char) : Char := if c == '+' then ' ' else c

/-- `form_urlencoded` decoding of one query key or value. -/
def formDecodeL (l : List Char) : List Char := percentDecodeL (l.map plusToSpace)

/-- Split a query string at every `&` (the pieces, in order). -/
def splitAmpAux : List Char → List Char → List (List Char)
  | [], acc => [acc.reverse]
  | '&' :: rest, acc => acc.reverse :: splitAmpAux rest []
  | c :: rest, acc => splitAmpAux rest (c :: acc)

/-- Split a query piece at the first `=` into key and value. -/
def splitEq : List Char → Option (List Char × List Char)
  | [] => none
  | '=' :: rest => some ([], rest)
  | c :: rest => (splitEq rest).map (fun p => (c :: p.1, p.2))

/-- Key/value of one `&`-separated piece; a piece without `=` is a key with
empty value (as in `form_urlencoded::parse`). -/
def pairOf (piece : List Char) : List Char × List Char :=
  match splitEq piece with
  | some kv => kv
  | none => (piece, [])

/-- `form_urlencoded::parse`: split on `&`, skip empty pieces, split each piece
at the first `=`, decode key and value. -/
def queryPairsL (q : List Char) : List (String × String) :=
  ((splitAmpAux q []).filter (fun p => !p.isEmpty)).map
    (fun piece => (⟨formDecodeL (pairOf piece).1⟩, ⟨formDecodeL (pairOf piece).2⟩))

/-- Upper-case hex digit of a value below 16. -/
def hexDigitC (n : Nat) : Char := if n < 10 then Char.ofNat (48 + n) else Char.ofNat (55 + n)

/-- `form_urlencoded` serialization of one character: alphanumerics and
`*-._` are kept, space becomes `+`, the rest is percent-escaped. -/
def formEncodeChar (c : Char) : List Char :=
  if c == ' ' then ['+']
  else if c.isAlphanum || c == '*' || c == '-' || c == '.' || c == '_' then [c]
  else ['%', hexDigitC (c.toNat / 16 % 16), hexDigitC (c.toNat % 16)]

/-- `form_urlencoded` serialization of a string. -/
def formEncode (s : String) : List Char := (s.data.map formEncodeChar).flatten

/-- `form_urlencoded::Serializer` with `append_pair` for every pair. -/
def serializePairs (ps : List (String × String)) : String :=
  ⟨((ps.map (fun kv => formEncode kv.1 ++ '=' :: formEncode kv.2)).intersperse ['&']).flatten⟩

/-! ## Glob compiler model (`globset` crate) -/

/-- One compiled glob token. -/
inductive GTok where
  | star
  | qmark
  | cls (neg : Bool) (cs : List Char)
  | lit (c : Char)
deriving DecidableEq

/-- Contents of a `[...]` character class up to the closing `]`, with the
remainder of the pattern; `none` when the class is unclosed. -/
def splitCls : List Char → Option (List Char × List Char)
  | [] => none
  | ']' :: rest => some ([], rest)
  | c :: rest => (splitCls rest).map (fun p => (c :: p.1, p.2))

/-- Fueled glob-pattern compiler; an unclosed `[` class fails, as in
`globset::Glob::new`.  Fuel `length + 1` always suffices (each step consumes
at least one character). -/
def globParseF : Nat → List Char → Option (List GTok)
  | 0, _ => none
  | _ + 1, [] => some []
  | n + 1, '*' :: rest => (globParseF n rest).map (GTok.star :: ·)
  | n + 1, '?' :: rest => (globParseF n rest).map (GTok.qmark :: ·)
  | n + 1, '[' :: '!' :: rest =>
    match splitCls rest with
    | none => none
    | some p => (globParseF n p.2).map (GTok.cls true p.1 :: ·)
  | n + 1, '[' :: rest =>
    match splitCls rest with
    | none => none
    | some p => (globParseF n p.2).map (GTok.cls false p.1 :: ·)
  | n + 1, c :: rest => (globParseF n rest).map (GTok.lit c :: ·)

/-- `globset::Glob::new`: compile a pattern, `none` when it is malformed. -/
def globParse (s : String) : Option (List GTok) := globParseF (s.data.length + 1) s.data

/-- Whether a non-star token matches one character. -/
def tokMatchChar : GTok → Char → Bool
  | .star, _ => true
  | .qmark, _ => true
  | .cls neg cs, c => if neg then !(cs.contains c) else cs.contains c
  | .lit a, c => a == c

/-- Fueled glob matcher; `*` matches any character sequence. Fuel
`pattern length + string length + 1` always suffices. -/
def globMatchF : Nat → List GTok → List Char → Bool
  | 0, _, _ => false
  | _ + 1, [], [] => true
  | n + 1, .star :: ps, [] => globMatchF n ps []
  | n + 1, .star :: ps, c :: cs => globMatchF n ps (c :: cs) || globMatchF n (.star :: ps) cs
  | _ + 1, _ :: _, [] => false
  | n + 1, p :: ps, c :: cs => tokMatchChar p c && globMatchF n ps cs
  | _ + 1, [], _ :: _ => false

/-- `GlobMatcher::is_match` for one compiled glob. -/
def globMatch (g : List GTok) (s : String) : Bool :=
  globMatchF (g.length + s.data.length + 1) g s.data

/-- `GlobSet::is_match`: any glob of the set matches. -/
def globSetMatch (gs : List (List GTok)) (s : String) : Bool := gs.any (fun g => globMatch g s)

/-! ## Rule data model (src/rules.rs) -/

/-- `HostRule` from src/rules.rs. -/
structure HostRule where
  hosts : List String
  unwrap_params : List String
  remove_params : List String
  remove_param_globs : List String
  strip_all_params : Option Bool
  keep_params : List String
deriving DecidableEq

/-- `RuleSet` from src/rules.rs. -/
structure RuleSet where
  remove_params : List String
  remove_param_globs : List String
  keep_params : List String
  host_rules : List HostRule
deriving DecidableEq

/-- The error kinds the cleaner can produce (`anyhow` contexts in the source:
"Invalid URL: {raw}" and "Invalid host glob / Invalid param glob: {pat}"). -/
inductive CleanError where
  | invalidUrl (raw : String)
  | invalidGlobPattern (pat : String)
deriving DecidableEq

deriving instance DecidableEq for Except

/-- `RuleSet::builtin` from src/rules.rs. -/
def RuleSet.builtin : RuleSet :=
  { remove_params := ["gclid", "gbraid", "wbraid", "fbclid", "igshid", "twclid",
      "mc_eid", "msclkid", "dclid", "icid", "mkt_tok", "vero_id", "vero_conv",
      "spm", "ncid", "epik", "si"]
    remove_param_globs := ["utm_*", "pk_*", "mtm_*", "oly_*", "s_cid*", "aff*", "ref*"]
    keep_params := []
    host_rules :=
      [ { hosts := ["*.google.com"], unwrap_params := ["url", "q", "u"],
          remove_params := [], remove_param_globs := [], strip_all_params := none,
          keep_params := [] },
        { hosts := ["*.facebook.com", "*.lm.facebook.com"], unwrap_params := ["u"],
          remove_params := [], remove_param_globs := [], strip_all_params := none,
          keep_params := [] },
        { hosts := ["out.reddit.com"], unwrap_params := ["url"],
          remove_params := [], remove_param_globs := [], strip_all_params := none,
          keep_params := [] },
        { hosts := ["*.youtube.com", "youtu.be"], unwrap_params := ["q"],
          remove_params := [], remove_param_globs := [], strip_all_params := none,
          keep_params := [] } ] }

/-- `RuleSet::merge` from src/rules.rs: pure list concatenation. -/
def RuleSet.merge (s other : RuleSet) : RuleSet :=
  { remove_params := s.remove_params ++ other.remove_params
    remove_param_globs := s.remove_param_globs ++ other.remove_param_globs
    keep_params := s.keep_params ++ other.keep_params
    host_rules := s.host_rules ++ other.host_rules }

/-- `CompiledHostRules` from src/rules.rs (the aggregated host view). -/
structure CompiledHostRules where
  unwrap_params : List String
  remove_params : List String
  remove_param_globs : List (List GTok)
  strip_all_params : Bool
  keep_params : List String
deriving DecidableEq

/-- `CompiledHostRules::new`: aggregate the matched rules; a host-local param
glob that fails to compile is silently skipped (the `if let Ok` in the source). -/
def CompiledHostRules.new (rules : List HostRule) : CompiledHostRules :=
  { unwrap_params := (rules.map (·.unwrap_params)).flatten
    remove_params := (rules.map (·.remove_params)).flatten
    remove_param_globs := (rules.map (fun r => r.remove_param_globs.filterMap globParse)).flatten
    strip_all_params := rules.any (fun r => r.strip_all_params.getD false)
    keep_params := (rules.map (·.keep_params)).flatten }

/-- The inner loop of `RuleSet::matcher_for`: does any pattern of the rule
match the host?  Compilation of each pattern happens as it is reached, and a
malformed pattern is an error; a match short-circuits the rest of the rule's
patterns. -/
def hostPatternsMatch (host : String) : List String → Except CleanError Bool
  | [] => .ok false
  | pat :: rest =>
    match globParse pat with
    | none => .error (.invalidGlobPattern pat)
    | some g => if globMatch g host then .ok true else hostPatternsMatch host rest

/-- The outer loop of `RuleSet::matcher_for`: collect every rule one of whose
host patterns matches, in order. -/
def matchedHostRules (host : String) : List HostRule → Except CleanError (List HostRule)
  | [] => .ok []
  | hr :: rest =>
    match hostPatternsMatch host hr.hosts with
    | .error e => .error e
    | .ok b =>
      match matchedHostRules host rest with
      | .error e => .error e
      | .ok others => .ok (if b then hr :: others else others)

/-- `RuleSet::matcher_for` from src/rules.rs. -/
def RuleSet.matcherFor (rs : RuleSet) (host : String) : Except CleanError CompiledHostRules :=
  match matchedHostRules host rs.host_rules with
  | .error e => .error e
  | .ok matched => .ok (CompiledHostRules.new matched)

/-- Compile a list of glob patterns, failing on the first malformed one. -/
def compileGlobList : List String → Except CleanError (List (List GTok))
  | [] => .ok []
  | p :: rest =>
    match globParse p with
    | none => .error (.invalidGlobPattern p)
    | some g =>
      match compileGlobList rest with
      | .error e => .error e
      | .ok gs => .ok (g :: gs)

/-- `RuleSet::compile_param_globs` from src/rules.rs: any malformed global
param glob is an error. -/
def RuleSet.compileParamGlobs (rs : RuleSet) : Except CleanError (List (List GTok)) :=
  compileGlobList rs.remove_param_globs

/-! ## URL model (the parts of the `url` crate the cleaner uses) -/

/-- A parsed absolute URL.  `authority` is `some ""` for URLs like
`file:///path` (the `url` crate reports no host for those). -/
structure Url where
  scheme : String
  authority : Option String
  path : String
  query : Option String
  fragment : Option String
deriving DecidableEq

/-- Characters allowed in a scheme after the first. -/
def isSchemeChar (c : Char) : Bool := c.isAlphanum || c == '+' || c == '-' || c == '.'

/-- The authority component runs until `/`, `?` or `#`. -/
def notAuthEnd (c : Char) : Bool := !(c == '/' || c == '?' || c == '#')

/-- The path component runs until `?` or `#`. -/
def notPathEnd (c : Char) : Bool := !(c == '?' || c == '#')

/-- The query component runs until `#`. -/
def notHash (c : Char) : Bool := !(c == '#')

/-- Split the part after the path into query and fragment. -/
def parseAfterPath (scheme : String) (auth : Option String) (path : String) :
    List Char → Url
  | '?' :: r5 =>
    match r5.dropWhile notHash with
    | '#' :: f =>
      { scheme := scheme, authority := auth, path := path,
        query := some ⟨r5.takeWhile notHash⟩, fragment := some ⟨f⟩ }
    | _ =>
      { scheme := scheme, authority := auth, path := path,
        query := some ⟨r5.takeWhile notHash⟩, fragment := none }
  | '#' :: f =>
    { scheme := scheme, authority := auth, path := path,
      query := none, fragment := some ⟨f⟩ }
  | _ =>
    { scheme := scheme, authority := auth, path := path,
      query := none, fragment := none }

/-- `Url::parse`, restricted to what the cleaner observes: an absolute URL is
a scheme (letter first, then scheme characters) followed by `:`, an optional
`//authority`, a path, an optional `?query` and an optional `#fragment`;
an empty path after an authority is normalized to `/`.  Anything without a
well-formed `scheme:` prefix is rejected (`Invalid URL`). -/
def parseL (l : List Char) : Option Url :=
  let sc := l.takeWhile isSchemeChar
  let rest := l.dropWhile isSchemeChar
  match sc, rest with
  | c :: _, ':' :: r1 =>
    if c.isAlpha then
      match r1 with
      | '/' :: '/' :: r2 =>
        let auth := r2.takeWhile notAuthEnd
        let r3 := r2.dropWhile notAuthEnd
        let path0 := r3.takeWhile notPathEnd
        let r4 := r3.dropWhile notPathEnd
        some (parseAfterPath ⟨sc⟩ (some ⟨auth⟩)
          (if path0.isEmpty then "/" else ⟨path0⟩) r4)
      | _ =>
        some (parseAfterPath ⟨sc⟩ none ⟨r1.takeWhile notPathEnd⟩
          (r1.dropWhile notPathEnd))
    else none
  | _, _ => none

/-- String wrapper for `parseL`. -/
def Url.parse (s : String) : Option Url := parseL s.data

/-- `Url::as_str` / `Url::into_string`: reassemble the components. -/
def Url.toList (u : Url) : List Char :=
  u.scheme.data ++ ':' ::
    ((match u.authority with | some a => '/' :: '/' :: a.data | none => []) ++
     u.path.data ++
     (match u.query with | some q => '?' :: q.data | none => []) ++
     (match u.fragment with | some f => '#' :: f.data | none => []))

/-- String form of a URL. -/
def Url.toString (u : Url) : String := ⟨u.toList⟩

/-- `Url::host_str`: the authority, with an empty authority reported as no
host (as the `url` crate does for `file:///`). -/
def Url.hostStr (u : Url) : Option String :=
  match u.authority with
  | some a => if a.data.isEmpty then none else some a
  | none => none

/-- `url.query_pairs()`: parse the raw query with `form_urlencoded`. -/
def Url.queryPairs (u : Url) : List (String × String) :=
  queryPairsL ((u.query.getD "").data)

/-! ## The cleaner (src/cleaner.rs) -/

/-- `raw.trim().trim_start_matches('<').trim_end_matches('>')`. -/
def trimL (l : List Char) : List Char :=
  let l1 := ((l.dropWhile Char.isWhitespace).reverse.dropWhile Char.isWhitespace).reverse
  let l2 := l1.dropWhile (fun c => c == '<')
  ((l2.reverse.dropWhile (fun c => c == '>')).reverse)

/-- String wrapper for `trimL`. -/
def trimInput (s : String) : String := ⟨trimL s.data⟩

/-- Whether a string contains a character. -/
def strContains (s : String) (c : Char) : Bool := s.data.any (fun x => x == c)

/-- The fragment heuristic of `UrlCleaner::clean`: a fragment containing `=`
is deleted entirely. -/
def stripTrackerFragment (u : Url) : Url :=
  match u.fragment with
  | some f => if strContains f '=' then { u with fragment := none } else u
  | none => u

/-- The candidate values collected by `try_unwrap`: in query order, the
(form-decoded) value of every pair whose key case-insensitively matches an
`unwrap_params` entry. -/
def unwrapCandidates (u : Url) (hr : CompiledHostRules) : List String :=
  u.queryPairs.filterMap (fun kv =>
    if hr.unwrap_params.any (fun p => eqIgnoreAsciiCase p kv.1) then some kv.2 else none)

/-- The candidate loop of `try_unwrap`: percent-decode each candidate once
more; the first decode that parses as a URL wins. -/
def firstValidUrl : List String → Option String
  | [] => none
  | c :: rest =>
    let decoded := percentDecode c
    if (Url.parse decoded).isSome then some decoded else firstValidUrl rest

/-- `try_unwrap` from src/cleaner.rs. -/
def tryUnwrap (u : Url) (hr : CompiledHostRules) : Option String :=
  if hr.unwrap_params.isEmpty then none
  else firstValidUrl (unwrapCandidates u hr)

/-- The keep test of `clean_query_params` (global or host-scoped keep list). -/
def keepMatch (rs : RuleSet) (hr : CompiledHostRules) (k : String) : Bool :=
  containsCaseInsensitive rs.keep_params k || containsCaseInsensitive hr.keep_params k

/-- The exact-name removal test of `clean_query_params`. -/
def removeMatch (rs : RuleSet) (hr : CompiledHostRules) (k : String) : Bool :=
  containsCaseInsensitive rs.remove_params k || containsCaseInsensitive hr.remove_params k

/-- The glob removal test of `clean_query_params`: the lowercased key against
the global set and the host view's set. -/
def globRemoveMatch (gg : List (List GTok)) (hr : CompiledHostRules) (k : String) : Bool :=
  globSetMatch gg (lowerStr k) || globSetMatch hr.remove_param_globs (lowerStr k)

/-- The per-parameter decision of the `clean_query_params` loop, first match
wins: keep-list, strip-all, exact removal, glob removal, default retain. -/
def paramKept (rs : RuleSet) (hr : CompiledHostRules) (gg : List (List GTok))
    (k : String) : Bool :=
  if keepMatch rs hr k then true
  else if hr.strip_all_params then false
  else if removeMatch rs hr k then false
  else if globRemoveMatch gg hr k then false
  else true

/-- `UrlCleaner::clean_query_params`: the loop keeps exactly the pairs passing
`paramKept` (in order) and records in `changed` whether any pair was dropped;
if something was dropped the query is re-serialized (or removed when nothing
is left), otherwise the URL is returned untouched. -/
def cleanQueryParams (rs : RuleSet) (u : Url) : Except CleanError Url :=
  match rs.matcherFor ((u.hostStr).getD "") with
  | .error e => .error e
  | .ok hostRules =>
    match rs.compileParamGlobs with
    | .error e => .error e
    | .ok globalGlobs =>
      let qpairs := u.queryPairs
      let newQ := qpairs.filter (fun kv => paramKept rs hostRules globalGlobs kv.1)
      let changed := qpairs.any (fun kv => !paramKept rs hostRules globalGlobs kv.1)
      if changed then
        if newQ.isEmpty then .ok { u with query := none }
        else .ok { u with query := some (serializePairs newQ) }
      else .ok u

/-- `UrlCleaner::clean`, with explicit fuel for the recursive unwrap call
(`none` means the fuel ran out; the termination theorems below show fuel
exceeding the input length always suffices). -/
def cleanFuel : Nat → RuleSet → String → Option (Except CleanError String)
  | 0, _, _ => none
  | n + 1, rs, raw =>
    match Url.parse (trimInput raw) with
    | none => some (.error (.invalidUrl raw))
    | some u0 =>
      let u := stripTrackerFragment u0
      match u.hostStr with
      | some host =>
        match rs.matcherFor host with
        | .error e => some (.error e)
        | .ok hr =>
          match tryUnwrap u hr with
          | some unwrapped => cleanFuel n rs unwrapped
          | none => some ((cleanQueryParams rs u).map Url.toString)
      | none => some ((cleanQueryParams rs u).map Url.toString)

/-- `UrlCleaner::clean`: run with sufficient fuel. -/
def clean (rs : RuleSet) (raw : String) : Except CleanError String :=
  match cleanFuel (raw.length + 1) rs raw with
  | some r => r
  | none => .error (.invalidUrl raw)

/-- One unfolding step of `clean`, with the recursive unwrap call abstracted;
`clean_unfold` below shows `clean` satisfies this equation with itself as the
recursive call. -/
def cleanRest (rs : RuleSet) (rec : String → Except CleanError String) (u : Url) :
    Except CleanError String :=
  match u.hostStr with
  | some host =>
    match rs.matcherFor host with
    | .error e => .error e
    | .ok hr =>
      match tryUnwrap u hr with
      | some unwrapped => rec unwrapped
      | none => (cleanQueryParams rs u).map Url.toString
  | none => (cleanQueryParams rs u).map Url.toString

/-- One full unfolding step of `clean`: parse, fragment heuristic, then
`cleanRest`. -/
def cleanStep (rs : RuleSet) (rec : String → Except CleanError String) (raw : String) :
    Except CleanError String :=
  match Url.parse (trimInput raw) with
  | none => .error (.invalidUrl raw)
  | some u0 => cleanRest rs rec (stripTrackerFragment u0)

/-- The batch loop of `main`: each input line is cleaned independently, a
failing line is skipped and the rest of the batch continues. -/
def processBatch (rs : RuleSet) (inputs : List String) : List String :=
  inputs.filterMap (fun line => (clean rs line).toOption)

/-! ## Spec-side definitions and concrete rule sets used by the claims -/

/-- The raw (undecoded) key/value pieces of a query string. -/
def rawQueryPairsL (q : List Char) : List (List Char × List Char) :=
  ((splitAmpAux q []).filter (fun p => !p.isEmpty)).map pairOf

/-- Second definition following the words of the spec for the unwrap step
("collect its raw value as a candidate"): the *raw, undecoded* values of the
matching query keys, to be percent-decoded exactly once.  The source instead
collects the already form-decoded values of `query_pairs` and then
percent-decodes them once more. -/
def specRawUnwrapCandidates (u : Url) (hr : CompiledHostRules) : List String :=
  (rawQueryPairsL ((u.query.getD "").data)).filterMap (fun kv =>
    if hr.unwrap_params.any (fun p => eqIgnoreAsciiCase p ⟨kv.1⟩) then some (⟨kv.2⟩ : String)
    else none)

/-- Second definition following the words of the spec for glob removal
("the rule-list entries and the input query keys are normalized before
comparison"): the glob patterns themselves are lowercased before compiling.
The source lowercases only the key, never the pattern. -/
def specNormalizedGlobRemove (pats : List String) (k : String) : Bool :=
  (pats.filterMap (fun p => globParse (lowerStr p))).any (fun g => globMatch g (lowerStr k))

/-- A host rule with `strip_all_params = true` and `keep_params = ["x"]`
(the concrete scenario of the strip-all-with-keep-override claim). -/
def stripRules : RuleSet :=
  ⟨[], [], [], [⟨["host"], [], [], [], some true, ["x"]⟩]⟩

/-- A rule set whose only removal rule is the upper-case glob `UTM_*`. -/
def upperGlobRules : RuleSet :=
  ⟨[], ["UTM_*"], [], []⟩

/-- A wrapper-host rule set: `wrap.example` unwraps its `u` parameter. -/
def wrapRules : RuleSet :=
  ⟨[], [], [], [⟨["wrap.example"], ["u"], [], [], none, []⟩]⟩

/-- A rule set whose single host rule lists a valid pattern before a malformed
one (`[`): hosts matching the first pattern never reach the malformed glob. -/
def mixedRules : RuleSet :=
  ⟨[], [], [], [⟨["x.example", "["], [], [], [], none, []⟩]⟩

/-- Well-formedness of a parsed URL: what `parseL` guarantees about its
components, and exactly what is needed for `Url.toString` to parse back to
the same URL. -/
def Url.wf (u : Url) : Bool :=
  (match u.scheme.data with
   | [] => false
   | c :: rest => c.isAlpha && isSchemeChar c && rest.all isSchemeChar) &&
  (match u.authority with
   | some a => a.data.all notAuthEnd &&
      (match u.path.data with | '/' :: _ => true | _ => false)
   | none =>
      (match u.path.data with | '/' :: '/' :: _ => false | _ => true)) &&
  u.path.data.all notPathEnd &&
  (match u.query with | some q => q.data.all notHash | none => true)

/-- Whether a string survives `trimInput` untouched at its end: its last
character is not whitespace and not `>`. -/
def lastCharOk (s : String) : Bool :=
  match s.data.getLast? with
  | none => true
  | some c => !(c.isWhitespace || c == '>')

/-- The serialized query and fragment tail of a URL (everything after the
path in `Url.toList`). -/
def qfList (query fragment : Option String) : List Char :=
  (match query with | some q => '?' :: q.data | none => []) ++
  (match fragment with | some f => '#' :: f.data | none => [])

/-! ## Length facts: every unwrapped URL is strictly shorter than its wrapper -/

theorem percentDecodeL_length (l : List Char) : (percentDecodeL l).length ≤ l.length := by
  induction l using percentDecodeL.induct with
  | case1 a b rest x y hb ha ih =>
    simp only [percentDecodeL, ha, hb, List.length_cons]
    omega
  | case2 a b rest hno ih =>
    have h : percentDecodeL ('%' :: a :: b :: rest) = '%' :: percentDecodeL (a :: b :: rest) := by
      rw [percentDecodeL.eq_1]
      rcases ha : hexVal a with _ | x <;> rcases hb : hexVal b with _ | y <;> simp_all
    rw [h]
    simpa using ih
  | case3 c rest hne ih =>
    rw [percentDecodeL.eq_2 c rest hne]
    simpa using ih
  | case4 => simp [percentDecodeL]

theorem formDecodeL_length (l : List Char) : (formDecodeL l).length ≤ l.length := by
  have := percentDecodeL_length (l.map plusToSpace)
  simpa [formDecodeL] using this

theorem splitAmpAux_mem_length (l : List Char) (acc : List Char) :
    ∀ p ∈ splitAmpAux l acc, p.length ≤ l.length + acc.length := by
  induction l, acc using splitAmpAux.induct with
  | case1 acc =>
    intro p hp
    simp only [splitAmpAux, List.mem_singleton] at hp
    simp [hp]
  | case2 rest acc ih =>
    intro p hp
    simp only [splitAmpAux, List.mem_cons] at hp
    rcases hp with h | h
    · simp only [h, List.length_reverse, List.length_cons]
      omega
    · have := ih p h
      simp at this ⊢
      omega
  | case3 c rest acc hne ih =>
    intro p hp
    rw [splitAmpAux.eq_3 acc c rest hne] at hp
    have := ih p hp
    simp at this ⊢
    omega

theorem splitEq_length (l : List Char) :
    ∀ kv, splitEq l = some kv → kv.1.length + kv.2.length + 1 = l.length := by
  induction l using splitEq.induct with
  | case1 => intro kv h; simp [splitEq] at h
  | case2 rest => intro kv h; simp [splitEq] at h; simp [← h]
  | case3 c rest hne ih =>
    intro kv h
    rw [splitEq.eq_3 c rest hne] at h
    rcases ho : splitEq rest with _ | kv'
    · simp [ho] at h
    · have := ih kv' ho
      simp [ho] at h
      simp [← h]
      omega

theorem pairOf_snd_length (p : List Char) : (pairOf p).2.length ≤ p.length := by
  unfold pairOf
  rcases h : splitEq p with _ | kv
  · simp
  · have := splitEq_length p kv h
    simp
    omega

theorem queryPairsL_val_length (q : List Char) :
    ∀ kv ∈ queryPairsL q, kv.2.length ≤ q.length := by
  intro kv hkv
  simp only [queryPairsL, List.mem_map, List.mem_filter] at hkv
  obtain ⟨piece, ⟨hmem, -⟩, hkv⟩ := hkv
  have h1 : piece.length ≤ q.length := by
    have := splitAmpAux_mem_length q [] piece hmem
    simpa using this
  have h2 : (pairOf piece).2.length ≤ piece.length := pairOf_snd_length piece
  have h3 : (formDecodeL (pairOf piece).2).length ≤ (pairOf piece).2.length :=
    formDecodeL_length _
  have : kv.2 = (⟨formDecodeL (pairOf piece).2⟩ : String) := by rw [← hkv]
  have hlen : kv.2.length = (formDecodeL (pairOf piece).2).length := by
    rw [this]; rfl
  omega

theorem parseAfterPath_query_length (scheme : String) (auth : Option String) (path : String)
    (r4 : List Char) (q : String) (hq : (parseAfterPath scheme auth path r4).query = some q) :
    q.data.length + 1 ≤ r4.length := by
  rcases r4 with _ | ⟨c, r5⟩
  · rw [parseAfterPath.eq_3] at hq
    · simp at hq
    · intro r h; cases h
    · intro f h; cases h
  · by_cases hc : c = '?'
    · subst hc
      rw [parseAfterPath.eq_1] at hq
      have hql : q.data = r5.takeWhile notHash := by
        split at hq <;> simp_all <;> exact (congrArg String.data hq.symm)
      have : (r5.takeWhile notHash).length ≤ r5.length := (List.takeWhile_sublist _).length_le
      rw [hql]
      simp
      omega
    · by_cases hc2 : c = '#'
      · subst hc2
        rw [parseAfterPath.eq_2] at hq
        simp at hq
      · rw [parseAfterPath.eq_3] at hq
        · simp at hq
        · intro r h
          injection h with h1 _
          exact hc h1
        · intro f h
          injection h with h1 _
          exact hc2 h1

theorem parseL_query_length (l : List Char) (u : Url) (q : String)
    (hp : parseL l = some u) (hq : u.query = some q) : q.data.length + 3 ≤ l.length := by
  have hlen : (l.takeWhile isSchemeChar).length + (l.dropWhile isSchemeChar).length = l.length := by
    have := congrArg List.length (List.takeWhile_append_dropWhile isSchemeChar l)
    rw [List.length_append] at this
    exact this
  rw [parseL.eq_1] at hp
  split at hp
  case h_2 => exact absurd hp (by simp)
  case h_1 c tail r1 hsc hrest =>
    split at hp
    case isFalse => exact absurd hp (by simp)
    case isTrue =>
      split at hp
      case h_1 r2 =>
        simp only [Option.some_inj] at hp
        subst hp
        have h1 := parseAfterPath_query_length _ _ _ _ q hq
        have h2 : (List.dropWhile notPathEnd (List.dropWhile notAuthEnd r2)).length ≤ r2.length :=
          le_trans (List.dropWhile_sublist _).length_le (List.dropWhile_sublist _).length_le
        have h3 : (c :: tail).length + (':' :: '/' :: '/' :: r2).length = l.length := by
          rw [← hsc, ← hrest] at *
          exact hlen
        simp at h3
        omega
      case h_2 =>
        simp only [Option.some_inj] at hp
        subst hp
        have h1 := parseAfterPath_query_length _ _ _ _ q hq
        have h2 : (List.dropWhile notPathEnd r1).length ≤ r1.length :=
          (List.dropWhile_sublist _).length_le
        have h3 : (c :: tail).length + (':' :: r1).length = l.length := by
          rw [← hsc, ← hrest] at *
          exact hlen
        simp at h3
        omega

theorem firstValidUrl_mem (cs : List String) (w : String) (h : firstValidUrl cs = some w) :
    ∃ c ∈ cs, w = percentDecode c := by
  induction cs with
  | nil => simp [firstValidUrl] at h
  | cons c rest ih =>
    rw [firstValidUrl.eq_2] at h
    split at h
    · exact ⟨c, by simp, by injection h with h'; exact h'.symm⟩
    · obtain ⟨c', hc', hw⟩ := ih h
      exact ⟨c', by simp [hc'], hw⟩

theorem percentDecode_length (s : String) : (percentDecode s).length ≤ s.length :=
  percentDecodeL_length s.data

theorem unwrapCandidates_length (u : Url) (hr : CompiledHostRules) (c : String)
    (hc : c ∈ unwrapCandidates u hr) (q : String) (hq : u.query = some q) :
    c.length ≤ q.length := by
  simp only [unwrapCandidates, List.mem_filterMap] at hc
  obtain ⟨kv, hkv, hif⟩ := hc
  have hceq : c = kv.2 := by
    by_cases h : hr.unwrap_params.any (fun p => eqIgnoreAsciiCase p kv.1) = true
    · simp [h] at hif; exact hif.symm
    · simp [h] at hif
  subst hceq
  have : kv ∈ queryPairsL q.data := by
    simpa [Url.queryPairs, hq] using hkv
  exact queryPairsL_val_length q.data kv this

theorem stripTrackerFragment_query (u : Url) :
    (stripTrackerFragment u).query = u.query := by
  unfold stripTrackerFragment
  rcases u.fragment with _ | f
  · rfl
  · dsimp only
    split <;> rfl

theorem stripTrackerFragment_fields (u : Url) :
    (stripTrackerFragment u).scheme = u.scheme ∧
    (stripTrackerFragment u).authority = u.authority ∧
    (stripTrackerFragment u).path = u.path := by
  unfold stripTrackerFragment
  rcases u.fragment with _ | f
  · exact ⟨rfl, rfl, rfl⟩
  · dsimp only
    split <;> exact ⟨rfl, rfl, rfl⟩

theorem trimL_length (l : List Char) : (trimL l).length ≤ l.length := by
  have s1 : ∀ (p : Char → Bool) (m : List Char), (List.dropWhile p m).length ≤ m.length :=
    fun p m => (List.dropWhile_sublist p).length_le
  have key : ∀ (p : Char → Bool) (m : List Char),
      ((List.dropWhile p m.reverse).reverse).length ≤ m.length := by
    intro p m
    simpa using s1 p m.reverse
  dsimp only [trimL]
  have h1 := s1 Char.isWhitespace l
  have h2 := key Char.isWhitespace (l.dropWhile Char.isWhitespace)
  have h3 := s1 (fun c => c == '<')
    ((List.dropWhile Char.isWhitespace (l.dropWhile Char.isWhitespace).reverse).reverse)
  have h4 := key (fun c => c == '>')
    (List.dropWhile (fun c => c == '<')
      ((List.dropWhile Char.isWhitespace (l.dropWhile Char.isWhitespace).reverse).reverse))
  omega

theorem tryUnwrap_shrinks (raw : String) (u0 : Url) (hr : CompiledHostRules) (w : String)
    (hp : Url.parse (trimInput raw) = some u0)
    (hw : tryUnwrap (stripTrackerFragment u0) hr = some w) : w.length < raw.length := by
  unfold tryUnwrap at hw
  split at hw
  · exact absurd hw (by simp)
  · obtain ⟨c, hc, hwc⟩ := firstValidUrl_mem _ _ hw
    rcases hu0q : u0.query with _ | q
    · exfalso
      have hnone : (stripTrackerFragment u0).query = none := by
        rw [stripTrackerFragment_query, hu0q]
      have hqp : (stripTrackerFragment u0).queryPairs = [] := by
        unfold Url.queryPairs
        rw [hnone]
        rfl
      rw [unwrapCandidates, hqp] at hc
      simp at hc
    · have hq' : (stripTrackerFragment u0).query = some q := by
        rw [stripTrackerFragment_query, hu0q]
      have h1 : c.length ≤ q.length := unwrapCandidates_length _ hr c hc q hq'
      have h2 : w.length ≤ c.length := by
        rw [hwc]; exact percentDecode_length c
      have h3 : q.data.length + 3 ≤ (trimInput raw).data.length :=
        parseL_query_length _ u0 q hp hu0q
      have h4 : (trimInput raw).data.length ≤ raw.data.length := trimL_length raw.data
      have h5 : q.length = q.data.length := rfl
      have h6 : raw.length = raw.data.length := rfl
      omega

/-! ## Fuel adequacy: `clean` terminates; fuel beyond the input length suffices -/

theorem cleanFuel_isSome (rs : RuleSet) (raw : String) (n : Nat) (hn : raw.length < n) :
    (cleanFuel n rs raw).isSome := by
  rcases n with _ | m
  · omega
  · simp only [cleanFuel]
    rcases hp : Url.parse (trimInput raw) with _ | u0
    · simp [hp]
    · simp only [hp]
      rcases hh : (stripTrackerFragment u0).hostStr with _ | host
      · simp [hh]
      · simp only [hh]
        rcases hm : rs.matcherFor host with e | hr
        · simp [hm]
        · simp only [hm]
          rcases ht : tryUnwrap (stripTrackerFragment u0) hr with _ | w
          · simp [ht]
          · simp only [ht]
            have hlt : w.length < raw.length := tryUnwrap_shrinks raw u0 hr w hp ht
            exact cleanFuel_isSome rs w m (by omega)
termination_by raw.length

theorem cleanFuel_stable (rs : RuleSet) (raw : String) (n : Nat) (hn : raw.length < n) :
    cleanFuel n rs raw = cleanFuel (raw.length + 1) rs raw := by
  rcases n with _ | m
  · omega
  · simp only [cleanFuel]
    rcases hp : Url.parse (trimInput raw) with _ | u0
    · simp [hp]
    · simp only [hp]
      rcases hh : (stripTrackerFragment u0).hostStr with _ | host
      · simp [hh]
      · simp only [hh]
        rcases hm : rs.matcherFor host with e | hr
        · simp [hm]
        · simp only [hm]
          rcases ht : tryUnwrap (stripTrackerFragment u0) hr with _ | w
          · simp [ht]
          · simp only [ht]
            have hlt : w.length < raw.length := tryUnwrap_shrinks raw u0 hr w hp ht
            rw [cleanFuel_stable rs w m (by omega),
              cleanFuel_stable rs w raw.length (by omega)]
termination_by raw.length

theorem cleanFuel_eq_clean (rs : RuleSet) (raw : String) (n : Nat) (hn : raw.length < n) :
    cleanFuel n rs raw = some (clean rs raw) := by
  have h1 := cleanFuel_isSome rs raw (raw.length + 1) (by omega)
  obtain ⟨r, hr⟩ := Option.isSome_iff_exists.mp h1
  rw [cleanFuel_stable rs raw n hn, hr]
  unfold clean
  rw [hr]

theorem clean_unfold (rs : RuleSet) (raw : String) :
    clean rs raw = cleanStep rs (clean rs) raw := by
  have h := cleanFuel_eq_clean rs raw (raw.length + 1) (by omega)
  simp only [cleanFuel] at h
  unfold cleanStep
  rcases hp : Url.parse (trimInput raw) with _ | u0
  · simp only [hp] at h ⊢
    injection h with h2
    exact h2.symm
  · simp only [hp] at h ⊢
    unfold cleanRest
    rcases hh : (stripTrackerFragment u0).hostStr with _ | host
    · simp only [hh] at h ⊢
      injection h with h2
      exact h2.symm
    · simp only [hh] at h ⊢
      rcases hm : rs.matcherFor host with e | hr
      · simp only [hm] at h ⊢
        injection h with h2
        exact h2.symm
      · simp only [hm] at h ⊢
        rcases ht : tryUnwrap (stripTrackerFragment u0) hr with _ | w
        · simp only [ht] at h ⊢
          injection h with h2
          exact h2.symm
        · simp only [ht] at h ⊢
          have hlt : w.length < raw.length := tryUnwrap_shrinks raw u0 hr w hp ht
          rw [cleanFuel_eq_clean rs w raw.length (by omega)] at h
          injection h with h2
          exact h2.symm

/-! ## Helper lemmas shared by the claim theorems -/

theorem clean_parse_fail (rs : RuleSet) (raw : String)
    (h : Url.parse (trimInput raw) = none) : clean rs raw = .error (.invalidUrl raw) := by
  rw [clean_unfold]
  unfold cleanStep
  rw [h]

theorem processBatch_split (rs : RuleSet) (pre post : List String) (bad : String)
    (h : (clean rs bad).toOption = none) :
    processBatch rs (pre ++ bad :: post) = processBatch rs pre ++ processBatch rs post := by
  simp [processBatch, List.filterMap_append, List.filterMap_cons, h]

theorem clean_of_parsed (rs : RuleSet) (raw : String) (u0 : Url)
    (hp : Url.parse (trimInput raw) = some u0) :
    clean rs raw = cleanRest rs (clean rs) (stripTrackerFragment u0) := by
  rw [clean_unfold]
  unfold cleanStep
  rw [hp]

theorem paramKept_formula (rs : RuleSet) (hr : CompiledHostRules) (gg : List (List GTok))
    (k : String) :
    paramKept rs hr gg k =
      (keepMatch rs hr k ||
        (!hr.strip_all_params && !removeMatch rs hr k && !globRemoveMatch gg hr k)) := by
  unfold paramKept
  by_cases h1 : keepMatch rs hr k <;> by_cases h2 : hr.strip_all_params <;>
    by_cases h3 : removeMatch rs hr k <;> by_cases h4 : globRemoveMatch gg hr k <;>
    simp [h1, h2, h3, h4]

theorem firstValidUrl_none_iff (cs : List String) :
    firstValidUrl cs = none ↔ ∀ c ∈ cs, (Url.parse (percentDecode c)).isSome = false := by
  induction cs with
  | nil => simp [firstValidUrl]
  | cons c rest ih =>
    rw [firstValidUrl.eq_2]
    by_cases h : (Url.parse (percentDecode c)).isSome = true
    · rw [if_pos h]
      constructor
      · intro hcontra
        exact absurd hcontra (by simp)
      · intro hall
        exact absurd (hall c (by simp)) (by simp [h])
    · have h' : (Url.parse (percentDecode c)).isSome = false := by simpa using h
      rw [if_neg h, ih]
      constructor
      · intro hall c' hc'
        rcases List.mem_cons.mp hc' with rfl | hm
        · exact h'
        · exact hall _ hm
      · intro hall c' hc'
        exact hall c' (by simp [hc'])

theorem firstValidUrl_first_hit (pre : List String) (c : String) (post : List String)
    (hpre : ∀ x ∈ pre, (Url.parse (percentDecode x)).isSome = false)
    (hc : (Url.parse (percentDecode c)).isSome = true) :
    firstValidUrl (pre ++ c :: post) = some (percentDecode c) := by
  induction pre with
  | nil =>
    rw [List.nil_append, firstValidUrl.eq_2, if_pos hc]
  | cons x xs ih =>
    rw [List.cons_append, firstValidUrl.eq_2]
    have hx : (Url.parse (percentDecode x)).isSome = false := hpre x (by simp)
    rw [hx]
    simp only [Bool.false_eq_true, if_false]
    exact ih (fun y hy => hpre y (by simp [hy]))

/-! ## Claim theorems -/

/-- C9 counterexample: the claim asserts that for some rule set and input,
`clean` recurses indefinitely and does not terminate.  This is false: no rule
set and no input can exhaust every fuel bound, because every unwrapped URL is
a decoded fragment of its wrapper's query and hence strictly shorter. -/
theorem c9_counterexample :
    ¬ ∃ (rs : RuleSet) (raw : String), ∀ n : Nat, cleanFuel n rs raw = none := by
  rintro ⟨rs, raw, h⟩
  have h1 := cleanFuel_isSome rs raw (raw.length + 1) (by omega)
  rw [h (raw.length + 1)] at h1
  simp at h1

/-- C9 (amended): the unwrap recursion has no explicit depth limit and no
too-many-redirects error kind exists (the only error kinds are `InvalidUrl`
and `InvalidGlobPattern`), but the recursion always terminates: any fuel
exceeding the input length computes `clean`, because each unwrapped URL is
strictly shorter than its wrapper. -/
theorem c9_recursion_bounded :
    (∀ (rs : RuleSet) (raw : String) (n : Nat), raw.length < n →
      cleanFuel n rs raw = some (clean rs raw)) ∧
    (∀ e : CleanError, (∃ s, e = .invalidUrl s) ∨ (∃ p, e = .invalidGlobPattern p)) := by
  constructor
  · exact fun rs raw n hn => cleanFuel_eq_clean rs raw n hn
  · intro e
    cases e with
    | invalidUrl s => exact Or.inl ⟨s, rfl⟩
    | invalidGlobPattern p => exact Or.inr ⟨p, rfl⟩

/-- Witness for C9: fuel 40 computes `clean` on a 33-character input. -/
theorem c9_recursion_bounded_witness :
    cleanFuel 40 RuleSet.builtin "https://example.com/?utm_source=1" =
      some (clean RuleSet.builtin "https://example.com/?utm_source=1") :=
  c9_recursion_bounded.1 RuleSet.builtin "https://example.com/?utm_source=1" 40 (by decide)

/-- C8: an input that does not parse as an absolute URL (after trimming)
yields `InvalidUrl` carrying the original raw text, and the failure is
recoverable per item: the batch omits the item and continues. -/
theorem c8_invalid_url_recoverable :
    (∀ (rs : RuleSet) (raw : String), Url.parse (trimInput raw) = none →
      clean rs raw = .error (.invalidUrl raw)) ∧
    (∀ (rs : RuleSet) (pre post : List String) (bad : String),
      Url.parse (trimInput bad) = none →
      processBatch rs (pre ++ bad :: post) = processBatch rs pre ++ processBatch rs post) ∧
    clean RuleSet.builtin "not a url" = .error (.invalidUrl "not a url") ∧
    processBatch RuleSet.builtin
      ["https://example.com/?utm_source=a&x=1", "not a url", "https://example.com/ok"] =
      ["https://example.com/?x=1", "https://example.com/ok"] := by
  refine ⟨clean_parse_fail, ?_, by decide, by decide⟩
  intro rs pre post bad hbad
  exact processBatch_split rs pre post bad (by rw [clean_parse_fail rs bad hbad]; rfl)

/-- Witness for C8: a batch with an unparseable middle item equals the two
halves cleaned separately. -/
theorem c8_invalid_url_recoverable_witness :
    processBatch RuleSet.builtin (["https://a.example/"] ++ "nope" :: ["https://b.example/"]) =
      processBatch RuleSet.builtin ["https://a.example/"] ++
        processBatch RuleSet.builtin ["https://b.example/"] :=
  c8_invalid_url_recoverable.2.1 RuleSet.builtin ["https://a.example/"] ["https://b.example/"]
    "nope" (by decide)

/-- C6: if a parsed URL's fragment contains `=`, the fragment is deleted
before any further processing (host matching, unwrapping, filtering all see
the fragment-stripped URL); a fragment without `=` is left unchanged.
Concretely, the fragment heuristic examples of the spec hold. -/
theorem c6_fragment_heuristic :
    (∀ (rs : RuleSet) (raw : String) (u0 : Url),
      Url.parse (trimInput raw) = some u0 →
      clean rs raw = cleanRest rs (clean rs) (stripTrackerFragment u0)) ∧
    (∀ (u0 : Url) (f : String), u0.fragment = some f →
      (strContains f '=' = true → stripTrackerFragment u0 = { u0 with fragment := none }) ∧
      (strContains f '=' = false → stripTrackerFragment u0 = u0)) ∧
    (∀ (u0 : Url), u0.fragment = none → stripTrackerFragment u0 = u0) ∧
    clean RuleSet.builtin "https://example.com/#xtor=AL-1" = .ok "https://example.com/" ∧
    clean RuleSet.builtin "https://example.com/#section1" =
      .ok "https://example.com/#section1" := by
  refine ⟨clean_of_parsed, ?_, ?_, by decide, by decide⟩
  · intro u0 f hf
    constructor <;> intro hc <;> unfold stripTrackerFragment <;> rw [hf] <;> simp [hc]
  · intro u0 hf
    unfold stripTrackerFragment
    rw [hf]

/-- Witness for C6: the fragment `xtor=AL-1` contains `=` and is deleted. -/
theorem c6_fragment_heuristic_witness :
    stripTrackerFragment ⟨"https", some "example.com", "/", none, some "xtor=AL-1"⟩ =
      ⟨"https", some "example.com", "/", none, none⟩ :=
  (c6_fragment_heuristic.2.1 ⟨"https", some "example.com", "/", none, some "xtor=AL-1"⟩
    "xtor=AL-1" rfl).1 (by decide)

/-- C10: a URL that parses but has no hostname (e.g. `file:///path`) is not
unwrapped and goes straight to query filtering; the host-rule aggregation
inside the filter runs against the empty string, so the global removal rules
apply to hostless URLs exactly as to hosted ones. -/
theorem c10_hostless_filtering :
    (∀ (rs : RuleSet) (raw : String) (u0 : Url),
      Url.parse (trimInput raw) = some u0 →
      (stripTrackerFragment u0).hostStr = none →
      clean rs raw = (cleanQueryParams rs (stripTrackerFragment u0)).map Url.toString) ∧
    (∀ u : Url, u.hostStr = none → (u.hostStr).getD "" = "") ∧
    clean RuleSet.builtin "file:///path?utm_source=1" = .ok "file:///path" ∧
    clean RuleSet.builtin "https://hosted.example/path?utm_source=1" =
      .ok "https://hosted.example/path" := by
  refine ⟨?_, ?_, by decide, by decide⟩
  · intro rs raw u0 hp hh
    rw [clean_of_parsed rs raw u0 hp]
    unfold cleanRest
    rw [hh]
  · intro u h
    rw [h]
    rfl

/-- Witness for C10: `file:///path?utm_source=1` reduces to plain query
filtering on its fragment-stripped parse. -/
theorem c10_hostless_filtering_witness :
    clean RuleSet.builtin "file:///path?utm_source=1" =
      (cleanQueryParams RuleSet.builtin
        (stripTrackerFragment ⟨"file", some "", "/path", some "utm_source=1", none⟩)).map
        Url.toString :=
  c10_hostless_filtering.1 RuleSet.builtin "file:///path?utm_source=1"
    ⟨"file", some "", "/path", some "utm_source=1", none⟩ (by decide) (by decide)

/-- C4 counterexample: the claim says a malformed host glob is fatal and
surfaces before any input items are processed.  On the rule set whose single
host rule lists the valid pattern `x.example` before the malformed `[`, the
first batch item is processed successfully and the batch finishes normally,
silently omitting only the item whose host reached the malformed pattern. -/
theorem c4_counterexample :
    clean mixedRules "https://y.example/" = .error (.invalidGlobPattern "[") ∧
    processBatch mixedRules ["https://x.example/", "https://y.example/"] =
      ["https://x.example/"] := by
  exact ⟨by decide, by decide⟩

/-- C4 (amended): a malformed host glob compiled during a `clean` call makes
that call return `InvalidGlobPattern` (propagating to `clean`'s caller), but
in batch processing it is a recoverable per-item failure: the failing item is
skipped and the remaining items are still cleaned; an item whose host matched
an earlier pattern of the rule never reaches the malformed pattern and
succeeds. -/
theorem c4_glob_error_per_item :
    (∀ (rs : RuleSet) (raw : String) (u0 : Url) (host : String) (e : CleanError),
      Url.parse (trimInput raw) = some u0 →
      (stripTrackerFragment u0).hostStr = some host →
      rs.matcherFor host = .error e →
      clean rs raw = .error e) ∧
    (∀ (rs : RuleSet) (pre post : List String) (bad : String) (e : CleanError),
      clean rs bad = .error e →
      processBatch rs (pre ++ bad :: post) = processBatch rs pre ++ processBatch rs post) ∧
    clean mixedRules "https://x.example/" = .ok "https://x.example/" := by
  refine ⟨?_, ?_, by decide⟩
  · intro rs raw u0 host e hp hh hm
    rw [clean_of_parsed rs raw u0 hp]
    unfold cleanRest
    simp only [hh, hm]
  · intro rs pre post bad e hbad
    exact processBatch_split rs pre post bad (by rw [hbad]; rfl)

/-- Witness for C4: the item hitting the malformed glob is dropped from the
batch while the surrounding items are still processed. -/
theorem c4_glob_error_per_item_witness :
    processBatch mixedRules (["https://x.example/"] ++ "https://y.example/" :: []) =
      processBatch mixedRules ["https://x.example/"] ++ processBatch mixedRules [] :=
  c4_glob_error_per_item.2.1 mixedRules ["https://x.example/"] [] "https://y.example/"
    (.invalidGlobPattern "[") (by decide)

/-- C5 counterexample: the claim says rule-list entries are normalized before
comparison, also for glob patterns.  With the single glob entry `UTM_*`, the
normalized comparison modelled from the spec's words matches `utm_source`,
but the code compiles the pattern verbatim, the lowercased key never matches,
and the parameter survives cleaning. -/
theorem c5_counterexample :
    specNormalizedGlobRemove upperGlobRules.remove_param_globs "utm_source" = true ∧
    upperGlobRules.compileParamGlobs =
      .ok [[.lit 'U', .lit 'T', .lit 'M', .lit '_', .star]] ∧
    globSetMatch [[.lit 'U', .lit 'T', .lit 'M', .lit '_', .star]]
      (lowerStr "utm_source") = false ∧
    clean upperGlobRules "https://example.com/?utm_source=1" =
      .ok "https://example.com/?utm_source=1" := by
  exact ⟨by decide, by decide, by decide, by decide⟩

/-- C5 (amended): input query keys are compared case-insensitively in every
keep, remove, glob and unwrap decision — any two keys with the same ASCII
lowercasing are classified identically — and exact-name rule entries are
compared case-insensitively; glob rule entries, however, are compiled
verbatim (an upper-case pattern matches nothing).  `UTM_SOURCE` is removed
exactly as `utm_source` is, including via the built-in glob `utm_*`. -/
theorem c5_case_insensitive_keys :
    (∀ (rs : RuleSet) (hr : CompiledHostRules) (gg : List (List GTok)) (k k' : String),
      lowerStr k = lowerStr k' →
      paramKept rs hr gg k = paramKept rs hr gg k') ∧
    (∀ (hr : CompiledHostRules) (k k' : String),
      lowerStr k = lowerStr k' →
      hr.unwrap_params.any (fun p => eqIgnoreAsciiCase p k) =
        hr.unwrap_params.any (fun p => eqIgnoreAsciiCase p k')) ∧
    clean RuleSet.builtin "https://example.com/?UTM_SOURCE=a&x=1" =
      .ok "https://example.com/?x=1" ∧
    clean RuleSet.builtin "https://example.com/?utm_source=a&x=1" =
      .ok "https://example.com/?x=1" := by
  have hcci : ∀ (l : List String) (k k' : String), lowerStr k = lowerStr k' →
      containsCaseInsensitive l k = containsCaseInsensitive l k' := by
    intro l k k' h
    unfold containsCaseInsensitive eqIgnoreAsciiCase
    rw [h]
  refine ⟨?_, ?_, by decide, by decide⟩
  · intro rs hr gg k k' h
    unfold paramKept keepMatch removeMatch globRemoveMatch
    rw [hcci rs.keep_params k k' h, hcci hr.keep_params k k' h,
      hcci rs.remove_params k k' h, hcci hr.remove_params k k' h, h]
  · intro hr k k' h
    unfold eqIgnoreAsciiCase
    rw [h]

/-- Witness for C5: `UTM_SOURCE` and `utm_source` get the same decision. -/
theorem c5_case_insensitive_keys_witness :
    paramKept RuleSet.builtin ⟨[], [], [], false, []⟩ [] "UTM_SOURCE" =
      paramKept RuleSet.builtin ⟨[], [], [], false, []⟩ [] "utm_source" :=
  c5_case_insensitive_keys.1 RuleSet.builtin ⟨[], [], [], false, []⟩ []
    "UTM_SOURCE" "utm_source" (by decide)

/-- C1: in query filtering every parameter is classified with the stated
precedence, first match wins — kept when its key case-insensitively matches a
global or host keep entry; otherwise dropped when the host view strips all
parameters; otherwise dropped on a case-insensitive exact removal match;
otherwise dropped when the lowercased key matches the global or host glob
set; otherwise kept — and the strip-all-with-keep example cleans
`https://host/?x=1&y=2` to `https://host/?x=1`. -/
theorem c1_filter_precedence :
    (∀ (rs : RuleSet) (u : Url) (hr : CompiledHostRules) (gg : List (List GTok)),
      rs.matcherFor ((u.hostStr).getD "") = .ok hr →
      rs.compileParamGlobs = .ok gg →
      cleanQueryParams rs u =
        (if u.queryPairs.any (fun kv =>
            !(keepMatch rs hr kv.1 ||
              (!hr.strip_all_params && !removeMatch rs hr kv.1 &&
                !globRemoveMatch gg hr kv.1))) then
          (if (u.queryPairs.filter (fun kv =>
              keepMatch rs hr kv.1 ||
                (!hr.strip_all_params && !removeMatch rs hr kv.1 &&
                  !globRemoveMatch gg hr kv.1))).isEmpty then
            .ok { u with query := none }
          else
            .ok { u with query := some (serializePairs (u.queryPairs.filter (fun kv =>
              keepMatch rs hr kv.1 ||
                (!hr.strip_all_params && !removeMatch rs hr kv.1 &&
                  !globRemoveMatch gg hr kv.1)))) })
        else .ok u)) ∧
    clean stripRules "https://host/?x=1&y=2" = .ok "https://host/?x=1" := by
  refine ⟨?_, by decide⟩
  intro rs u hr gg hm hg
  simp only [← paramKept_formula]
  unfold cleanQueryParams
  simp only [hm, hg]

/-- Witness for C1: the strip-all-with-keep rule set on `https://host/?x=1&y=2`
keeps exactly `x=1`. -/
theorem c1_filter_precedence_witness :
    cleanQueryParams stripRules ⟨"https", some "host", "/", some "x=1&y=2", none⟩ =
      .ok ⟨"https", some "host", "/", some "x=1", none⟩ := by
  have h := c1_filter_precedence.1 stripRules
    ⟨"https", some "host", "/", some "x=1&y=2", none⟩
    ⟨[], [], [], true, ["x"]⟩ [] (by decide) (by decide)
  rw [h]
  decide

/-- C3: when at least one parameter is dropped and nothing is retained the
query component is removed entirely; when some are retained they are
re-serialized in original order with standard form encoding; and when no
parameter is dropped the URL (and so its query) is returned exactly as
parsed, byte for byte — verified concretely by the no-op example whose query
`a=%20b&c=d` would re-encode differently. -/
theorem c3_query_serialization :
    (∀ (rs : RuleSet) (u : Url) (hr : CompiledHostRules) (gg : List (List GTok)) (q : String),
      rs.matcherFor ((u.hostStr).getD "") = .ok hr →
      rs.compileParamGlobs = .ok gg →
      u.query = some q →
      ((queryPairsL q.data).any (fun kv => !paramKept rs hr gg kv.1) = true →
        ((queryPairsL q.data).filter (fun kv => paramKept rs hr gg kv.1) = [] →
          cleanQueryParams rs u = .ok { u with query := none }) ∧
        (∀ kp kps,
          (queryPairsL q.data).filter (fun kv => paramKept rs hr gg kv.1) = kp :: kps →
          cleanQueryParams rs u =
            .ok { u with query := some (serializePairs (kp :: kps)) })) ∧
      ((queryPairsL q.data).any (fun kv => !paramKept rs hr gg kv.1) = false →
        cleanQueryParams rs u = .ok u)) ∧
    clean RuleSet.builtin "https://example.com/?a=%20b&c=d" =
      .ok "https://example.com/?a=%20b&c=d" := by
  refine ⟨?_, by decide⟩
  intro rs u hr gg q hm hg hq
  have hqp : u.queryPairs = queryPairsL q.data := by
    unfold Url.queryPairs
    rw [hq]
    rfl
  unfold cleanQueryParams
  simp only [hm, hg, hqp]
  constructor
  · intro hany
    constructor
    · intro hfil
      simp only [hany, if_true, hfil, List.isEmpty_nil, if_true]
    · intro kp kps hfil
      simp only [hany, if_true, hfil, List.isEmpty_cons, Bool.false_eq_true, if_false]
  · intro hany
    simp only [hany]
    rfl

/-- Witness for C3: nothing is dropped from `a=%20b&c=d`, so the query is
kept byte-for-byte (re-encoding would have produced `a=+b&c=d`). -/
theorem c3_query_serialization_witness :
    cleanQueryParams RuleSet.builtin
      ⟨"https", some "example.com", "/", some "a=%20b&c=d", none⟩ =
      .ok ⟨"https", some "example.com", "/", some "a=%20b&c=d", none⟩ :=
  (c3_query_serialization.1 RuleSet.builtin
      ⟨"https", some "example.com", "/", some "a=%20b&c=d", none⟩
      ⟨[], [], [], false, []⟩
      [[.lit 'u', .lit 't', .lit 'm', .lit '_', .star],
       [.lit 'p', .lit 'k', .lit '_', .star],
       [.lit 'm', .lit 't', .lit 'm', .lit '_', .star],
       [.lit 'o', .lit 'l', .lit 'y', .lit '_', .star],
       [.lit 's', .lit '_', .lit 'c', .lit 'i', .lit 'd', .star],
       [.lit 'a', .lit 'f', .lit 'f', .star],
       [.lit 'r', .lit 'e', .lit 'f', .star]]
      "a=%20b&c=d" (by decide) (by decide) rfl).2 (by decide)

/-- C2 counterexample: the claim says the *raw* values of matching query keys
are collected and percent-decoded *exactly once*.  On the double-encoded
wrapper `https://wrap.example/?u=https%253A%252F%252Fdest.example%252F` a
single decode of the raw value yields `https%3A%2F%2Fdest.example%2F`, which
is not a valid URL — under the claim no candidate is valid and cleaning falls
through to filtering, which leaves the URL unchanged.  The code instead
collects the form-decoded value from the query-pair iterator and decodes it
once more, so it unwraps to `https://dest.example/`. -/
theorem c2_counterexample :
    clean wrapRules "https://wrap.example/?u=https%253A%252F%252Fdest.example%252F" =
      .ok "https://dest.example/" ∧
    (∀ c ∈ specRawUnwrapCandidates
        ⟨"https", some "wrap.example", "/",
          some "u=https%253A%252F%252Fdest.example%252F", none⟩
        ⟨["u"], [], [], false, []⟩,
      Url.parse (percentDecode c) = none) ∧
    (cleanQueryParams wrapRules
        ⟨"https", some "wrap.example", "/",
          some "u=https%253A%252F%252Fdest.example%252F", none⟩).map Url.toString =
      .ok "https://wrap.example/?u=https%253A%252F%252Fdest.example%252F" ∧
    ("https://dest.example/" : String) ≠
      "https://wrap.example/?u=https%253A%252F%252Fdest.example%252F" := by
  exact ⟨by decide, by decide, by decide, by decide⟩

/-- C2 (amended): when the aggregated host view's unwrap list is non-empty,
the candidates are the form-decoded values (as produced by the query-pair
iterator) of every key case-insensitively matching an unwrap entry, in
original query order; each candidate is then percent-decoded once more, the
first whose decode parses as a URL is cleaned recursively and returned
immediately, and if no candidate's decode parses, cleaning falls through to
query filtering. -/
theorem c2_unwrap_candidates :
    ∀ (rs : RuleSet) (raw : String) (u0 : Url) (host : String) (hr : CompiledHostRules),
      Url.parse (trimInput raw) = some u0 →
      (stripTrackerFragment u0).hostStr = some host →
      rs.matcherFor host = .ok hr →
      hr.unwrap_params ≠ [] →
      ((∀ c ∈ unwrapCandidates (stripTrackerFragment u0) hr,
          (Url.parse (percentDecode c)).isSome = false) →
        clean rs raw =
          (cleanQueryParams rs (stripTrackerFragment u0)).map Url.toString) ∧
      (∀ (pre : List String) (c : String) (post : List String),
        unwrapCandidates (stripTrackerFragment u0) hr = pre ++ c :: post →
        (∀ x ∈ pre, (Url.parse (percentDecode x)).isSome = false) →
        (Url.parse (percentDecode c)).isSome = true →
        clean rs raw = clean rs (percentDecode c)) := by
  intro rs raw u0 host hr hp hh hm hne
  have hnonempty : hr.unwrap_params.isEmpty = false := by
    rcases hu : hr.unwrap_params with _ | ⟨a, l⟩
    · exact absurd hu hne
    · rfl
  constructor
  · intro hall
    have htu : tryUnwrap (stripTrackerFragment u0) hr = none := by
      unfold tryUnwrap
      simp only [hnonempty, Bool.false_eq_true, if_false]
      exact (firstValidUrl_none_iff _).mpr hall
    rw [clean_of_parsed rs raw u0 hp]
    unfold cleanRest
    simp only [hh, hm, htu]
  · intro pre c post hcands hpre hc
    have htu : tryUnwrap (stripTrackerFragment u0) hr = some (percentDecode c) := by
      unfold tryUnwrap
      simp only [hnonempty, Bool.false_eq_true, if_false]
      rw [hcands]
      exact firstValidUrl_first_hit pre c post hpre hc
    rw [clean_of_parsed rs raw u0 hp]
    unfold cleanRest
    simp only [hh, hm, htu]

/-- Witness for C2: on the single-encoded wrapper the first (only) candidate
decodes to `https://dest.example/` and cleaning recurses on it. -/
theorem c2_unwrap_candidates_witness :
    clean wrapRules "https://wrap.example/?u=https%3A%2F%2Fdest.example%2F" =
      clean wrapRules (percentDecode "https://dest.example/") :=
  (c2_unwrap_candidates wrapRules "https://wrap.example/?u=https%3A%2F%2Fdest.example%2F"
      ⟨"https", some "wrap.example", "/", some "u=https%3A%2F%2Fdest.example%2F", none⟩
      "wrap.example" ⟨["u"], [], [], false, []⟩
      (by decide) (by decide) (by decide) (by decide)).2
    [] "https://dest.example/" [] (by decide) (by decide) (by decide)

/-! ## Parse/serialize facts for the idempotence claim -/

theorem takeWhile_append_cons (p : Char → Bool) (xs : List Char) (y : Char) (ys : List Char)
    (hall : ∀ x ∈ xs, p x = true) (hy : p y = false) :
    (xs ++ y :: ys).takeWhile p = xs ∧ (xs ++ y :: ys).dropWhile p = y :: ys := by
  induction xs with
  | nil =>
    simp [List.takeWhile_cons, List.dropWhile_cons, hy]
  | cons a xs' ih =>
    have ha : p a = true := hall a (by simp)
    have ih' := ih (fun x hx => hall x (by simp [hx]))
    simp [List.takeWhile_cons, List.dropWhile_cons, ha, ih'.1, ih'.2]

theorem takeWhile_append_nil (p : Char → Bool) (xs : List Char)
    (hall : ∀ x ∈ xs, p x = true) :
    xs.takeWhile p = xs ∧ xs.dropWhile p = [] := by
  induction xs with
  | nil => simp
  | cons a xs' ih =>
    have ha : p a = true := hall a (by simp)
    have ih' := ih (fun x hx => hall x (by simp [hx]))
    simp [List.takeWhile_cons, List.dropWhile_cons, ha, ih'.1, ih'.2]

theorem takeWhile_cons_inv (p : Char → Bool) (l : List Char) (c : Char) (cs : List Char)
    (h : l.takeWhile p = c :: cs) :
    p c = true ∧ ∃ l', l = c :: l' ∧ l'.takeWhile p = cs := by
  rcases l with _ | ⟨a, l'⟩
  · simp at h
  · rw [List.takeWhile_cons] at h
    by_cases ha : p a = true
    · rw [if_pos ha] at h
      injection h with h1 h2
      subst h1
      exact ⟨ha, l', rfl, h2⟩
    · rw [if_neg ha] at h
      cases h

theorem dropWhile_cons_inv (p : Char → Bool) (l : List Char) (c : Char) (cs : List Char)
    (h : l.dropWhile p = c :: cs) : p c = false := by
  induction l with
  | nil => simp at h
  | cons a l' ih =>
    rw [List.dropWhile_cons] at h
    by_cases ha : p a = true
    · rw [if_pos ha] at h
      exact ih h
    · rw [if_neg ha] at h
      injection h with h1 h2
      subst h1
      simpa using ha

theorem dropWhile_id (p : Char → Bool) (l : List Char)
    (h : ∀ c cs, l = c :: cs → p c = false) : l.dropWhile p = l := by
  rcases l with _ | ⟨a, l'⟩
  · rfl
  · rw [List.dropWhile_cons, h a l' rfl]
    simp

theorem revDropWhile_id (p : Char → Bool) (l : List Char)
    (h : ∀ c, l.getLast? = some c → p c = false) :
    (l.reverse.dropWhile p).reverse = l := by
  have hd : l.reverse.dropWhile p = l.reverse := by
    apply dropWhile_id
    intro c cs hrev
    apply h
    rw [← List.head?_reverse]
    rw [hrev]
    rfl
  rw [hd, List.reverse_reverse]

theorem trimL_id (l : List Char)
    (h1 : ∀ c cs, l = c :: cs → c.isWhitespace = false ∧ (c == '<') = false)
    (h2 : ∀ c, l.getLast? = some c → c.isWhitespace = false ∧ (c == '>') = false) :
    trimL l = l := by
  dsimp only [trimL]
  rw [dropWhile_id Char.isWhitespace l (fun c cs hl => (h1 c cs hl).1),
    revDropWhile_id Char.isWhitespace l (fun c hc => (h2 c hc).1),
    dropWhile_id (fun c => c == '<') l (fun c cs hl => (h1 c cs hl).2),
    revDropWhile_id (fun c => c == '>') l (fun c hc => (h2 c hc).2)]

theorem alpha_not_ws (c : Char) (h : c.isAlpha = true) : c.isWhitespace = false := by
  simp only [Char.isAlpha, Char.isUpper, Char.isLower, Bool.or_eq_true,
    Bool.and_eq_true, decide_eq_true_eq] at h
  simp only [Char.isWhitespace, Bool.or_eq_true, decide_eq_true_eq]
  simp only [Bool.or_eq_false_iff, decide_eq_false_iff_not]
  rcases h with ⟨h1, h2⟩ | ⟨h1, h2⟩ <;>
    refine ⟨⟨⟨?_, ?_⟩, ?_⟩, ?_⟩ <;> rintro rfl <;> revert h1 h2 <;> decide

theorem alpha_not_lt (c : Char) (h : c.isAlpha = true) : (c == '<') = false := by
  simp only [Char.isAlpha, Char.isUpper, Char.isLower, Bool.or_eq_true,
    Bool.and_eq_true, decide_eq_true_eq] at h
  simp only [beq_eq_false_iff_ne, ne_eq]
  rcases h with ⟨h1, h2⟩ | ⟨h1, h2⟩ <;> rintro rfl <;> revert h1 h2 <;> decide

theorem parseAfterPath_parts (scheme : String) (auth : Option String) (path : String)
    (r4 : List Char) :
    (parseAfterPath scheme auth path r4).scheme = scheme ∧
    (parseAfterPath scheme auth path r4).authority = auth ∧
    (parseAfterPath scheme auth path r4).path = path ∧
    ((parseAfterPath scheme auth path r4).query = none ∨
      ∃ r5, r4 = '?' :: r5 ∧
        (parseAfterPath scheme auth path r4).query = some ⟨r5.takeWhile notHash⟩) := by
  unfold parseAfterPath
  split
  · split
    · exact ⟨rfl, rfl, rfl, Or.inr ⟨_, rfl, rfl⟩⟩
    · exact ⟨rfl, rfl, rfl, Or.inr ⟨_, rfl, rfl⟩⟩
  · exact ⟨rfl, rfl, rfl, Or.inl rfl⟩
  · exact ⟨rfl, rfl, rfl, Or.inl rfl⟩

theorem all_takeWhile (p : Char → Bool) (l : List Char) : (l.takeWhile p).all p = true := by
  rw [List.all_eq_true]
  intro x hx
  exact List.mem_takeWhile_imp hx

theorem authEnd_pathOk_slash (c0 : Char) (h1 : notAuthEnd c0 = false)
    (h2 : notPathEnd c0 = true) : c0 = '/' := by
  simp [notAuthEnd] at h1
  simp [notPathEnd] at h2
  tauto

theorem wf_auth_case (sc r2 : List Char) (c : Char) (tail : List Char)
    (hsc : sc = c :: tail) (hα : c.isAlpha = true)
    (hall : ∀ x ∈ sc, isSchemeChar x = true) :
    (parseAfterPath ⟨sc⟩ (some ⟨r2.takeWhile notAuthEnd⟩)
      (if (List.takeWhile notPathEnd (r2.dropWhile notAuthEnd)).isEmpty then "/"
        else ⟨List.takeWhile notPathEnd (r2.dropWhile notAuthEnd)⟩)
      (List.dropWhile notPathEnd (r2.dropWhile notAuthEnd))).wf = true := by
  obtain ⟨hsch, hauth, hpath, hquery⟩ := parseAfterPath_parts
    (⟨sc⟩ : String) (some ⟨r2.takeWhile notAuthEnd⟩)
    (if (List.takeWhile notPathEnd (r2.dropWhile notAuthEnd)).isEmpty then "/"
      else ⟨List.takeWhile notPathEnd (r2.dropWhile notAuthEnd)⟩)
    (List.dropWhile notPathEnd (r2.dropWhile notAuthEnd))
  unfold Url.wf
  rw [hsch, hauth, hpath]
  simp only [Bool.and_eq_true]
  refine ⟨⟨⟨?_, ?_⟩, ?_⟩, ?_⟩
  · rw [hsc]
    have hc : isSchemeChar c = true := hall c (by rw [hsc]; simp)
    have ht : tail.all isSchemeChar = true := by
      rw [List.all_eq_true]
      intro x hx
      exact hall x (by rw [hsc]; simp [hx])
    simp [hα, hc, ht]
  · dsimp only
    constructor
    · exact all_takeWhile notAuthEnd r2
    · by_cases hpe : (List.takeWhile notPathEnd (r2.dropWhile notAuthEnd)).isEmpty = true
      · rw [if_pos hpe]
        decide
      · rw [if_neg hpe]
        rcases hp0 : List.takeWhile notPathEnd (r2.dropWhile notAuthEnd) with _ | ⟨c0, cs⟩
        · rw [hp0] at hpe
          exact absurd rfl hpe
        · obtain ⟨hpc0, l', hl', _⟩ := takeWhile_cons_inv notPathEnd _ c0 cs hp0
          have hna : notAuthEnd c0 = false := dropWhile_cons_inv notAuthEnd r2 c0 l' hl'
          have hc0 : c0 = '/' := authEnd_pathOk_slash c0 hna hpc0
          rw [hc0]
          exact rfl
  · by_cases hpe : (List.takeWhile notPathEnd (r2.dropWhile notAuthEnd)).isEmpty = true
    · rw [if_pos hpe]
      decide
    · rw [if_neg hpe]
      exact all_takeWhile notPathEnd (r2.dropWhile notAuthEnd)
  · rcases hquery with hnone | ⟨r5, _, hq⟩
    · rw [hnone]
    · rw [hq]
      exact all_takeWhile notHash r5

theorem wf_opaque_case (sc r1 : List Char) (c : Char) (tail : List Char)
    (hsc : sc = c :: tail) (hα : c.isAlpha = true)
    (hall : ∀ x ∈ sc, isSchemeChar x = true)
    (hns : ∀ r2, r1 = '/' :: '/' :: r2 → False) :
    (parseAfterPath ⟨sc⟩ none ⟨r1.takeWhile notPathEnd⟩ (r1.dropWhile notPathEnd)).wf
      = true := by
  obtain ⟨hsch, hauth, hpath, hquery⟩ := parseAfterPath_parts
    (⟨sc⟩ : String) none ⟨r1.takeWhile notPathEnd⟩ (r1.dropWhile notPathEnd)
  unfold Url.wf
  rw [hsch, hauth, hpath]
  simp only [Bool.and_eq_true]
  refine ⟨⟨⟨?_, ?_⟩, ?_⟩, ?_⟩
  · rw [hsc]
    have hc : isSchemeChar c = true := hall c (by rw [hsc]; simp)
    have ht : tail.all isSchemeChar = true := by
      rw [List.all_eq_true]
      intro x hx
      exact hall x (by rw [hsc]; simp [hx])
    simp [hα, hc, ht]
  · show (match (⟨r1.takeWhile notPathEnd⟩ : String).data with
      | '/' :: '/' :: _ => false
      | _ => true) = true
    split
    · next heq =>
      exfalso
      obtain ⟨_, l1, hr1, ht1⟩ := takeWhile_cons_inv notPathEnd r1 '/' _ heq
      obtain ⟨_, l2, hl1, _⟩ := takeWhile_cons_inv notPathEnd l1 '/' _ ht1
      exact hns l2 (by rw [hr1, hl1])
    · rfl
  · exact all_takeWhile notPathEnd r1
  · rcases hquery with hnone | ⟨r5, _, hq⟩
    · rw [hnone]
    · rw [hq]
      exact all_takeWhile notHash r5

theorem parse_wf (l : List Char) (u : Url) (hp : parseL l = some u) : u.wf = true := by
  rw [parseL.eq_1] at hp
  split at hp
  case h_2 => exact absurd hp (by simp)
  case h_1 c tail r1 hsc hrest =>
    split at hp
    case isFalse => exact absurd hp (by simp)
    case isTrue hα =>
      have hschemeAll : ∀ x ∈ l.takeWhile isSchemeChar, isSchemeChar x = true := by
        intro x hx
        exact List.mem_takeWhile_imp hx
      split at hp
      case h_1 r2 =>
        simp only [Option.some_inj] at hp
        subst hp
        exact wf_auth_case (l.takeWhile isSchemeChar) r2 c tail hsc hα hschemeAll
      case h_2 hns =>
        simp only [Option.some_inj] at hp
        subst hp
        exact wf_opaque_case (l.takeWhile isSchemeChar) r1 c tail hsc hα hschemeAll
          (fun r2 h => hns r2 h)

theorem parseAfterPath_compute (sch : String) (auth : Option String) (pth : String)
    (query fragment : Option String)
    (hq : ∀ q, query = some q → q.data.all notHash = true) :
    parseAfterPath sch auth pth (qfList query fragment) =
      ⟨sch, auth, pth, query, fragment⟩ := by
  rcases query with _ | q
  · rcases fragment with _ | f
    · rw [show qfList none none = [] from rfl,
        parseAfterPath.eq_3 _ _ _ _ (by intro _ h; cases h) (by intro _ h; cases h)]
    · rw [show qfList none (some f) = '#' :: f.data from rfl, parseAfterPath.eq_2]
  · have hqall : ∀ x ∈ q.data, notHash x = true := by
      have := hq q rfl
      rw [List.all_eq_true] at this
      exact this
    rcases fragment with _ | f
    · have happ : qfList (some q) none = '?' :: q.data := by
        simp [qfList]
      rw [happ, parseAfterPath.eq_1]
      obtain ⟨ht, hd⟩ := takeWhile_append_nil notHash q.data hqall
      rw [hd, ht]
    · have happ : qfList (some q) (some f) = '?' :: (q.data ++ '#' :: f.data) := by
        simp [qfList]
      rw [happ, parseAfterPath.eq_1]
      obtain ⟨ht, hd⟩ := takeWhile_append_cons notHash q.data '#' f.data hqall (by decide)
      rw [hd, ht]
      exact rfl

theorem takeWhile_path_qf (pd : List Char) (query fragment : Option String)
    (hp : ∀ x ∈ pd, notPathEnd x = true) :
    (pd ++ qfList query fragment).takeWhile notPathEnd = pd ∧
    (pd ++ qfList query fragment).dropWhile notPathEnd = qfList query fragment := by
  rcases query with _ | q
  · rcases fragment with _ | f
    · have := takeWhile_append_nil notPathEnd pd hp
      constructor <;> simp [qfList, this.1, this.2]
    · have := takeWhile_append_cons notPathEnd pd '#' f.data hp (by decide)
      exact ⟨by simpa [qfList] using this.1, by simpa [qfList] using this.2⟩
  · have := takeWhile_append_cons notPathEnd pd '?'
      (q.data ++ (match fragment with | some f => '#' :: f.data | none => [])) hp (by decide)
    exact ⟨by simpa [qfList] using this.1, by simpa [qfList] using this.2⟩

theorem parseL_auth_build (c : Char) (tail adata ptail qf : List Char) (u : Url)
    (hα : c.isAlpha = true)
    (hallsc : ∀ x ∈ c :: tail, isSchemeChar x = true)
    (halla : ∀ x ∈ adata, notAuthEnd x = true)
    (htq : List.takeWhile notPathEnd ('/' :: (ptail ++ qf)) = '/' :: ptail)
    (hdq : List.dropWhile notPathEnd ('/' :: (ptail ++ qf)) = qf)
    (hpa : parseAfterPath ⟨c :: tail⟩ (some ⟨adata⟩) ⟨'/' :: ptail⟩ qf = u) :
    parseL ((c :: tail) ++ ':' :: '/' :: '/' :: (adata ++ '/' :: (ptail ++ qf))) =
      some u := by
  rw [parseL.eq_1]
  obtain ⟨htk, hdp⟩ := takeWhile_append_cons isSchemeChar (c :: tail) ':'
    ('/' :: '/' :: (adata ++ '/' :: (ptail ++ qf))) hallsc (by decide)
  rw [htk, hdp]
  split
  next c1 tail1 r1 heq1 heq2 =>
    injection heq1 with hc1 htail1
    injection heq2 with h0 hr1
    subst hc1
    subst hr1
    rw [if_pos hα]
    split
    next r2 heq3 =>
      injection heq3 with h1 h3
      injection h3 with h2 h4
      subst h4
      dsimp only
      obtain ⟨hta, hda⟩ := takeWhile_append_cons notAuthEnd adata '/' (ptail ++ qf)
        halla (by decide)
      rw [hta, hda, htq, hdq]
      rw [if_neg (by simp)]
      rw [hpa]
    next hcond =>
      exact (hcond (adata ++ '/' :: (ptail ++ qf)) rfl).elim
  next hcond =>
    exact (hcond c tail ('/' :: '/' :: (adata ++ '/' :: (ptail ++ qf))) rfl rfl).elim

theorem parseL_opaque_build (c : Char) (tail pdata qf : List Char) (u : Url)
    (hα : c.isAlpha = true)
    (hallsc : ∀ x ∈ c :: tail, isSchemeChar x = true)
    (hns : ∀ r2, pdata ++ qf = '/' :: '/' :: r2 → False)
    (htq : List.takeWhile notPathEnd (pdata ++ qf) = pdata)
    (hdq : List.dropWhile notPathEnd (pdata ++ qf) = qf)
    (hpa : parseAfterPath ⟨c :: tail⟩ none ⟨pdata⟩ qf = u) :
    parseL ((c :: tail) ++ ':' :: (pdata ++ qf)) = some u := by
  rw [parseL.eq_1]
  obtain ⟨htk, hdp⟩ := takeWhile_append_cons isSchemeChar (c :: tail) ':' (pdata ++ qf)
    hallsc (by decide)
  rw [htk, hdp]
  split
  next c1 tail1 r1 heq1 heq2 =>
    injection heq1 with hc1 htail1
    injection heq2 with h0 hr1
    subst hc1
    subst hr1
    rw [if_pos hα]
    split
    next r2 heq3 =>
      exact (hns r2 heq3).elim
    next =>
      rw [htq, hdq, hpa]
  next hcond =>
    exact (hcond c tail (pdata ++ qf) rfl rfl).elim

theorem no_double_slash (pdata : List Char) (query fragment : Option String)
    (hB : (match pdata with | '/' :: '/' :: _ => false | _ => true) = true) :
    ∀ r2, pdata ++ qfList query fragment = '/' :: '/' :: r2 → False := by
  intro r2 heq
  unfold qfList at heq
  rcases pdata with _ | ⟨p1, pd⟩
  · rcases query with _ | q
    · rcases fragment with _ | f
      · simp at heq
      · simp only [List.nil_append] at heq
        injection heq with h1 h2
        exact absurd h1 (by decide)
    · simp only [List.nil_append, List.cons_append] at heq
      injection heq with h1 h2
      exact absurd h1 (by decide)
  · simp only [List.cons_append] at heq
    injection heq with h1 h2
    subst h1
    rcases pd with _ | ⟨p2, pd'⟩
    · simp only [List.nil_append] at h2
      rcases query with _ | q
      · rcases fragment with _ | f
        · simp at h2
        · simp only [List.nil_append] at h2
          injection h2 with h3 h4
          exact absurd h3 (by decide)
      · simp only [List.cons_append] at h2
        injection h2 with h3 h4
        exact absurd h3 (by decide)
    · simp only [List.cons_append] at h2
      injection h2 with h3 h4
      subst h3
      split at hB
      · exact Bool.noConfusion hB
      · next hcond => exact (hcond pd' rfl).elim

theorem wf_roundtrip (u : Url) (h : u.wf = true) : parseL (Url.toList u) = some u := by
  obtain ⟨⟨sdata⟩, authority, ⟨pdata⟩, query, fragment⟩ := u
  unfold Url.wf at h
  dsimp only at h
  simp only [Bool.and_eq_true] at h
  obtain ⟨⟨⟨hA, hB⟩, hC⟩, hD⟩ := h
  rcases sdata with _ | ⟨c, tail⟩
  · exact absurd hA (by decide)
  · dsimp only at hA
    simp only [Bool.and_eq_true] at hA
    obtain ⟨⟨hα, hsc⟩, htail⟩ := hA
    have hallsc : ∀ x ∈ c :: tail, isSchemeChar x = true := by
      intro x hx
      rcases List.mem_cons.mp hx with rfl | hm
      · exact hsc
      · exact (List.all_eq_true.mp htail) x hm
    have hq : ∀ q, query = some q → q.data.all notHash = true := by
      intro q hq'
      rw [hq'] at hD
      exact hD
    rcases authority with _ | a
    · dsimp only at hB
      have hallp : ∀ x ∈ pdata, notPathEnd x = true := List.all_eq_true.mp hC
      have hsplit := takeWhile_path_qf pdata query fragment hallp
      have hcompute := parseAfterPath_compute ⟨c :: tail⟩ none ⟨pdata⟩ query fragment hq
      have hshape : Url.toList ⟨⟨c :: tail⟩, none, ⟨pdata⟩, query, fragment⟩ =
          (c :: tail) ++ ':' :: (pdata ++ qfList query fragment) := by
        unfold Url.toList qfList
        dsimp only
        simp [List.append_assoc]
      rw [hshape]
      exact parseL_opaque_build c tail pdata _ _ hα hallsc
        (no_double_slash pdata query fragment hB) hsplit.1 hsplit.2 hcompute
    · obtain ⟨adata⟩ := a
      dsimp only at hB
      simp only [Bool.and_eq_true] at hB
      obtain ⟨hBa, hBp⟩ := hB
      have halla : ∀ x ∈ adata, notAuthEnd x = true := List.all_eq_true.mp hBa
      split at hBp
      next x ptail =>
        have hallp : ∀ x ∈ '/' :: ptail, notPathEnd x = true := List.all_eq_true.mp hC
        have hsplit := takeWhile_path_qf ('/' :: ptail) query fragment hallp
        have hcompute := parseAfterPath_compute ⟨c :: tail⟩ (some ⟨adata⟩) ⟨'/' :: ptail⟩
          query fragment hq
        have hshape : Url.toList ⟨⟨c :: tail⟩, some ⟨adata⟩, ⟨'/' :: ptail⟩, query, fragment⟩ =
            (c :: tail) ++ ':' :: '/' :: '/' ::
              (adata ++ '/' :: (ptail ++ qfList query fragment)) := by
          unfold Url.toList qfList
          dsimp only
          simp [List.append_assoc]
        rw [hshape]
        exact parseL_auth_build c tail adata ptail _ _ hα hallsc halla
          (by simpa using hsplit.1) (by simpa using hsplit.2) hcompute
      next => exact Bool.noConfusion hBp

theorem wf_head_alpha (u : Url) (h : u.wf = true) :
    ∀ c cs, Url.toList u = c :: cs → c.isAlpha = true := by
  unfold Url.wf at h
  simp only [Bool.and_eq_true] at h
  obtain ⟨⟨⟨hA, hB⟩, hC⟩, hD⟩ := h
  intro c cs htl
  rcases hs : u.scheme.data with _ | ⟨c0, t⟩
  · rw [hs] at hA
    exact absurd hA (by decide)
  · unfold Url.toList at htl
    rw [hs] at htl
    simp only [List.cons_append] at htl
    injection htl with h1 h2
    subst h1
    rw [hs] at hA
    dsimp only at hA
    simp only [Bool.and_eq_true] at hA
    exact hA.1.1

/-- C7: cleaning is idempotent on already-clean inputs.  "Already clean" is:
the input parses, its fragment (if any) contains no `=`, no unwrap fires for
its host, query filtering drops nothing (so the URL is returned exactly as
parsed), and the serialized form has a benign last character (the real
cleaner never emits trailing whitespace or `>`).  Then `clean` returns the
parsed URL's string form, and cleaning that output returns it unchanged:
`clean (clean raw) = clean raw`. -/
theorem c7_idempotent_on_clean :
    ∀ (rs : RuleSet) (raw : String) (u0 : Url),
      Url.parse (trimInput raw) = some u0 →
      (∀ f, u0.fragment = some f → strContains f '=' = false) →
      (∀ host hr, u0.hostStr = some host → rs.matcherFor host = .ok hr →
        tryUnwrap u0 hr = none) →
      cleanQueryParams rs u0 = .ok u0 →
      lastCharOk (Url.toString u0) = true →
      clean rs raw = .ok (Url.toString u0) ∧
      clean rs (Url.toString u0) = .ok (Url.toString u0) := by
  intro rs raw u0 hp hfrag hunwrap hq hlast
  have hstrip : stripTrackerFragment u0 = u0 := by
    unfold stripTrackerFragment
    split
    next f heq => simp [hfrag f heq]
    next => rfl
  have main : ∀ raw', Url.parse (trimInput raw') = some u0 →
      clean rs raw' = .ok (Url.toString u0) := by
    intro raw' hp'
    rw [clean_of_parsed rs raw' u0 hp', hstrip]
    unfold cleanRest
    rcases hh : u0.hostStr with _ | host
    · simp only [hh]
      rw [hq]
      rfl
    · simp only [hh]
      have hmf : ∃ hr, rs.matcherFor ((u0.hostStr).getD "") = .ok hr := by
        unfold cleanQueryParams at hq
        rcases hmm : rs.matcherFor ((u0.hostStr).getD "") with e | hr
        · rw [hmm] at hq
          exact absurd hq (by simp)
        · exact ⟨hr, rfl⟩
      obtain ⟨hr, hmfr⟩ := hmf
      have hmfr' : rs.matcherFor host = .ok hr := by
        rw [hh] at hmfr
        exact hmfr
      simp only [hmfr']
      rw [hunwrap host hr hh hmfr']
      rw [hq]
      rfl
  refine ⟨main raw hp, main (Url.toString u0) ?_⟩
  have hwf : u0.wf = true := parse_wf (trimInput raw).data u0 hp
  have hdata : (Url.toString u0).data = Url.toList u0 := rfl
  have h1 : ∀ c cs, (Url.toString u0).data = c :: cs →
      c.isWhitespace = false ∧ (c == '<') = false := by
    intro c cs hc
    rw [hdata] at hc
    have hcα := wf_head_alpha u0 hwf c cs hc
    exact ⟨alpha_not_ws c hcα, alpha_not_lt c hcα⟩
  have h2 : ∀ c, (Url.toString u0).data.getLast? = some c →
      c.isWhitespace = false ∧ (c == '>') = false := by
    intro c hc
    unfold lastCharOk at hlast
    rw [hc] at hlast
    dsimp only at hlast
    simp only [Bool.not_eq_eq_eq_not, Bool.not_true, Bool.or_eq_false_iff] at hlast
    exact hlast
  have htrim : trimInput (Url.toString u0) = Url.toString u0 := by
    unfold trimInput
    have := trimL_id (Url.toString u0).data h1 h2
    rw [this]
  rw [htrim]
  exact wf_roundtrip u0 hwf

/-- Witness for C7: a URL that the built-in rules leave untouched cleans to
itself, and cleaning the output again returns it unchanged. -/
theorem c7_idempotent_on_clean_witness :
    clean RuleSet.builtin "https://clean.example/a?x=1" =
      .ok (Url.toString ⟨"https", some "clean.example", "/a", some "x=1", none⟩) ∧
    clean RuleSet.builtin
        (Url.toString ⟨"https", some "clean.example", "/a", some "x=1", none⟩) =
      .ok (Url.toString ⟨"https", some "clean.example", "/a", some "x=1", none⟩) :=
  c7_idempotent_on_clean RuleSet.builtin "https://clean.example/a?x=1"
    ⟨"https", some "clean.example", "/a", some "x=1", none⟩
    (by decide)
    (fun f h => Option.noConfusion h)
    (by
      intro host hr hh hm
      injection hh with hhost
      subst hhost
      rw [show RuleSet.builtin.matcherFor "clean.example" =
        .ok ⟨[], [], [], false, []⟩ from by decide] at hm
      injection hm with hhr
      subst hhr
      decide)
    (by decide)
    (by decide)
